import Mathlib

/-!
# Verification of the name-guessing heuristic of `scripts/extract_cv.py`

The repository's only original logic is `guess_candidate_name`, a pure
heuristic that guesses a candidate's name from the extracted text of a
resume PDF, plus the few lines of `main` that build the output record.
This file embeds that code, character for character where Lean allows it,
over `List Char`, and proves the specification's claims about it.

Modelling conventions:
* Python strings become `List Char` (wrapped back into `String` at the
  boundary); `len` is `List.length` (both count code points).
* Python's per-character case maps (`str.upper` / `str.lower`) and
  `str.isalpha` are modelled on the ASCII range, matching the repository's
  stated non-goal of "no multi-language name handling beyond ASCII
  alphabetic tokens".
* Python whitespace (`str.strip`, `str.split` with no separator) is
  modelled by the six ASCII whitespace characters; `str.splitlines` by the
  terminators `\n`, `\r`, `\r\n`, `\x0b`, `\x0c`.
* All functions are structurally recursive, hence total: termination is by
  construction.
-/

/-- The six ASCII whitespace characters: the characters `str.strip()` and
`str.split()` treat as separators. -/
def isSpaceChar (c : Char) : Bool :=
  c == ' ' || c == '\t' || c == '\n' || c == '\r' || c == '\x0b' || c == '\x0c'

/-- The ASCII case table: each lowercase letter next to its uppercase
partner. -/
def caseTable : List (Char × Char) :=
  [('a', 'A'), ('b', 'B'), ('c', 'C'), ('d', 'D'), ('e', 'E'), ('f', 'F'),
   ('g', 'G'), ('h', 'H'), ('i', 'I'), ('j', 'J'), ('k', 'K'), ('l', 'L'),
   ('m', 'M'), ('n', 'N'), ('o', 'O'), ('p', 'P'), ('q', 'Q'), ('r', 'R'),
   ('s', 'S'), ('t', 'T'), ('u', 'U'), ('v', 'V'), ('w', 'W'), ('x', 'X'),
   ('y', 'Y'), ('z', 'Z')]

/-- ASCII `str.upper` on one character: a lowercase letter maps to its
uppercase partner, everything else is unchanged. -/
def upperChar (c : Char) : Char :=
  match caseTable.find? (fun p => p.1 == c) with
  | some p => p.2
  | none => c

/-- ASCII `str.lower` on one character: an uppercase letter maps to its
lowercase partner, everything else is unchanged. -/
def lowerChar (c : Char) : Char :=
  match caseTable.find? (fun p => p.2 == c) with
  | some p => p.1
  | none => c

/-- ASCII `str.isalpha` on one character. -/
def isAlphaChar (c : Char) : Bool :=
  ('a' ≤ c && c ≤ 'z') || ('A' ≤ c && c ≤ 'Z')

/-- `str.lower` over a whole string. -/
def lowerString (s : List Char) : List Char :=
  s.map lowerChar

/-- Python `str.strip()`: remove whitespace from both ends. -/
def pyStrip (s : List Char) : List Char :=
  ((s.dropWhile isSpaceChar).reverse.dropWhile isSpaceChar).reverse

/-- Worker for `splitlines`: `acc` holds the current line, reversed. -/
def splitlinesAux : List Char → List Char → List (List Char)
  | [], acc => if acc.isEmpty then [] else [acc.reverse]
  | '\r' :: '\n' :: rest, acc => acc.reverse :: splitlinesAux rest []
  | c :: rest, acc =>
    if c == '\r' || c == '\n' || c == '\x0b' || c == '\x0c' then
      acc.reverse :: splitlinesAux rest []
    else splitlinesAux rest (c :: acc)

/-- Python `str.splitlines()`: split at line terminators (`\n`, `\r`,
`\r\n`, `\x0b`, `\x0c`), with no trailing empty line. -/
def splitlines (s : List Char) : List (List Char) :=
  splitlinesAux s []

/-- Worker for `splitWs`: `acc` holds the current token, reversed. -/
def splitWsAux : List Char → List Char → List (List Char)
  | [], acc => if acc.isEmpty then [] else [acc.reverse]
  | c :: rest, acc =>
    if isSpaceChar c then
      if acc.isEmpty then splitWsAux rest []
      else acc.reverse :: splitWsAux rest []
    else splitWsAux rest (c :: acc)

/-- Python `str.split()` with no separator: split on runs of whitespace,
discarding empty tokens. -/
def splitWs (s : List Char) : List (List Char) :=
  splitWsAux s []

/-- Python `" ".join`: interleave a single space between the pieces. -/
def joinSpace : List (List Char) → List Char
  | [] => []
  | [t] => t
  | t :: rest => t ++ ' ' :: joinSpace rest

/-- Whether `small` occurs at the very start of `big`. -/
def startsWithList : List Char → List Char → Bool
  | [], _ => true
  | _ :: _, [] => false
  | a :: as, b :: bs => a == b && startsWithList as bs

/-- Python's substring test `small in big`. -/
def isInfixList (small : List Char) : List Char → Bool
  | [] => small.isEmpty
  | c :: rest => startsWithList small (c :: rest) || isInfixList small rest

/-- Everything after the first `:` of the line (the whole suffix, even if
it contains further colons): Python's `line.split(":", 1)[-1]` when a
colon is present. -/
def splitAfterFirstColon : List Char → List Char
  | [] => []
  | c :: rest => if c = ':' then rest else splitAfterFirstColon rest

/-! ## The embedded source: `guess_candidate_name` and the payload -/

/-- The `skip_keywords` blocklist of `guess_candidate_name`. -/
def skipKeywords : List (List Char) :=
  ["location", "country", "phone", "email", "summary", "profile",
   "experience", "skills", "tech", "stack", "linkedin", "github",
   "contact"].map String.data

/-- `any(keyword in lower for keyword in skip_keywords)` where `lower`
is the lowercased normalized line. -/
def keywordHit (normalized : List Char) : Bool :=
  skipKeywords.any (fun kw => isInfixList kw (lowerString normalized))

/-- `token.replace("-", "").isalpha()`: drop hyphens, then require a
non-empty all-alphabetic remainder. -/
def isAlphaToken (token : List Char) : Bool :=
  let t := token.filter (fun c => c != '-')
  !t.isEmpty && t.all isAlphaChar

/-- The alpha tokens of a normalized line: whitespace-split, keeping the
tokens that pass `isAlphaToken`. -/
def alphaTokens (normalized : List Char) : List (List Char) :=
  (splitWs normalized).filter isAlphaToken

/-- `token[:1].upper() + token[1:].lower()`: uppercase the first
character, lowercase the remainder. -/
def capitalize : List Char → List Char
  | [] => []
  | c :: rest => upperChar c :: rest.map lowerChar

/-- `line.split(":", 1)[-1].strip() if ":" in line else line`. -/
def normalizeLine (line : List Char) : List Char :=
  if line.contains ':' then pyStrip (splitAfterFirstColon line) else line

/-- The body of the candidate-line comprehension: keep `line.strip()` when
it is non-empty and at most 60 characters long. -/
def keepLine (line : List Char) : Option (List Char) :=
  if !(pyStrip line).isEmpty && decide ((pyStrip line).length ≤ 60) then
    some (pyStrip line)
  else none

/-- The candidate-line sequence: `[line.strip() for line in
text.splitlines() if line.strip() and len(line.strip()) <= 60]`. -/
def candidateLines (text : List Char) : List (List Char) :=
  (splitlines text).filterMap keepLine

/-- The loop body of `guess_candidate_name` applied to an already
normalized line: skip on a keyword hit, skip when fewer than two alpha
tokens remain, otherwise return the capitalized first two joined by a
space (the source spells the two-token case and the more-than-two case as
separate branches; both are kept). -/
def normalizedGuess (normalized : List Char) : Option (List Char) :=
  if keywordHit normalized then none
  else
    let tokens := alphaTokens normalized
    if 2 ≤ tokens.length then
      if tokens.length = 2 then some (joinSpace (tokens.map capitalize))
      else some (joinSpace ((tokens.take 2).map capitalize))
    else none

/-- The loop body of `guess_candidate_name` on a raw candidate line. -/
def lineGuess (line : List Char) : Option (List Char) :=
  normalizedGuess (normalizeLine line)

/-- The `for line in lines[:20]` loop: first line whose body returns wins. -/
def scanLines : List (List Char) → Option (List Char)
  | [] => none
  | line :: rest =>
    match lineGuess line with
    | some g => some g
    | none => scanLines rest

/-- A line the loop would accept: it passes the blocklist check and has at
least two alpha tokens. -/
def qualifiesLine (line : List Char) : Bool :=
  !keywordHit (normalizeLine line) &&
    decide (2 ≤ (alphaTokens (normalizeLine line)).length)

/-- The fallback word list: `[token for token in
text.replace("\n", " ").split() if token.replace("-", "").isalpha()]`. -/
def fallbackWords (text : List Char) : List (List Char) :=
  (splitWs (text.map (fun c => if c == '\n' then ' ' else c))).filter isAlphaToken

/-- `guess_candidate_name` over a character list: scan the first 20
candidate lines, then fall back to the whole document's words, then give
up with the empty string. -/
def guessList (text : List Char) : List Char :=
  match scanLines ((candidateLines text).take 20) with
  | some g => g
  | none =>
    if 2 ≤ (fallbackWords text).length then
      joinSpace (((fallbackWords text).take 2).map capitalize)
    else []

/-- `guess_candidate_name(text)` at the string boundary. -/
def guess_candidate_name (text : String) : String :=
  ⟨guessList text.data⟩

/-- The payload construction of `main` (lines 95–98), given the extracted
text: `{"text": text}`, plus `"name"` exactly when the guess is truthy
(non-empty). -/
def buildPayload (text : String) : List (String × String) :=
  if guess_candidate_name text = "" then [("text", text)]
  else [("text", text), ("name", guess_candidate_name text)]

/-! ## Character-level facts -/

/-- The uppercase ASCII letters: the possible proper images of `upperChar`. -/
def ucChars : List Char :=
  caseTable.map Prod.snd

/-- The lowercase ASCII letters: the possible proper images of `lowerChar`. -/
def lcChars : List Char :=
  caseTable.map Prod.fst

theorem upperChar_out (c : Char) : upperChar c = c ∨ upperChar c ∈ ucChars := by
  cases hf : caseTable.find? (fun p => p.1 == c) with
  | none => left; simp [upperChar, hf]
  | some p =>
    right
    simp only [upperChar, hf]
    exact List.mem_map_of_mem _ (List.mem_of_find?_eq_some hf)

theorem lowerChar_out (c : Char) : lowerChar c = c ∨ lowerChar c ∈ lcChars := by
  cases hf : caseTable.find? (fun p => p.2 == c) with
  | none => left; simp [lowerChar, hf]
  | some p =>
    right
    simp only [lowerChar, hf]
    exact List.mem_map_of_mem _ (List.mem_of_find?_eq_some hf)

theorem ucChars_fixed : ∀ u ∈ ucChars, upperChar u = u := by decide

theorem lcChars_fixed : ∀ u ∈ lcChars, lowerChar u = u := by decide

theorem ucChars_not_space : ∀ u ∈ ucChars, isSpaceChar u = false := by decide

theorem lcChars_not_space : ∀ u ∈ lcChars, isSpaceChar u = false := by decide

theorem upperChar_idem (c : Char) : upperChar (upperChar c) = upperChar c := by
  rcases upperChar_out c with h | h
  · rw [h]; exact h
  · exact ucChars_fixed _ h

theorem lowerChar_idem (c : Char) : lowerChar (lowerChar c) = lowerChar c := by
  rcases lowerChar_out c with h | h
  · rw [h]; exact h
  · exact lcChars_fixed _ h

theorem upperChar_not_space (c : Char) (h : isSpaceChar c = false) :
    isSpaceChar (upperChar c) = false := by
  rcases upperChar_out c with h2 | h2
  · rw [h2]; exact h
  · exact ucChars_not_space _ h2

theorem lowerChar_not_space (c : Char) (h : isSpaceChar c = false) :
    isSpaceChar (lowerChar c) = false := by
  rcases lowerChar_out c with h2 | h2
  · rw [h2]; exact h
  · exact lcChars_not_space _ h2

/-! ## `capitalize` facts -/

theorem capitalize_ne_nil {t : List Char} (h : t ≠ []) : capitalize t ≠ [] := by
  cases t with
  | nil => exact absurd rfl h
  | cons c rest => simp [capitalize]

theorem capitalize_spaceFree {t : List Char}
    (h : ∀ c ∈ t, isSpaceChar c = false) :
    ∀ c ∈ capitalize t, isSpaceChar c = false := by
  cases t with
  | nil => intro c hc; simp [capitalize] at hc
  | cons a rest =>
    intro c hc
    simp only [capitalize, List.mem_cons, List.mem_map] at hc
    rcases hc with hc | ⟨d, hd, hdc⟩
    · subst hc; exact upperChar_not_space a (h a (by simp))
    · subst hdc; exact lowerChar_not_space d (h d (by simp [hd]))

theorem capitalize_idem (t : List Char) : capitalize (capitalize t) = capitalize t := by
  cases t with
  | nil => rfl
  | cons a rest =>
    simp only [capitalize, List.map_map]
    refine congrArg₂ List.cons (upperChar_idem a) ?_
    exact List.map_congr_left (fun d _ => by simpa using lowerChar_idem d)

/-! ## `splitWs` facts: tokens are non-empty and whitespace-free -/

theorem splitWsAux_mem : ∀ (s acc : List Char),
    (∀ c ∈ acc, isSpaceChar c = false) →
    ∀ t ∈ splitWsAux s acc, t ≠ [] ∧ ∀ c ∈ t, isSpaceChar c = false := by
  intro s
  induction s with
  | nil =>
    intro acc hacc t ht
    by_cases h : acc.isEmpty = true
    · simp [splitWsAux, h] at ht
    · rw [splitWsAux, if_neg h] at ht
      rw [List.mem_singleton] at ht
      subst ht
      rw [List.isEmpty_iff] at h
      refine ⟨by simpa using h, ?_⟩
      intro c hc
      exact hacc c (by simpa using hc)
  | cons a s ih =>
    intro acc hacc t ht
    rw [splitWsAux] at ht
    by_cases ha : isSpaceChar a = true
    · rw [if_pos ha] at ht
      by_cases h : acc.isEmpty = true
      · rw [if_pos h] at ht
        exact ih [] (by simp) t ht
      · rw [if_neg h] at ht
        rcases List.mem_cons.mp ht with he | he
        · subst he
          rw [List.isEmpty_iff] at h
          refine ⟨by simpa using h, ?_⟩
          intro c hc
          exact hacc c (by simpa using hc)
        · exact ih [] (by simp) t he
    · rw [if_neg ha] at ht
      refine ih (a :: acc) ?_ t ht
      intro c hc
      rcases List.mem_cons.mp hc with he | he
      · subst he; simpa using ha
      · exact hacc c he

theorem splitWs_mem (s : List Char) :
    ∀ t ∈ splitWs s, t ≠ [] ∧ ∀ c ∈ t, isSpaceChar c = false :=
  splitWsAux_mem s [] (by simp)

theorem splitWsAux_append_left : ∀ (a : List Char),
    (∀ c ∈ a, isSpaceChar c = false) →
    ∀ (s acc : List Char), splitWsAux (a ++ s) acc = splitWsAux s (a.reverse ++ acc) := by
  intro a
  induction a with
  | nil => intro _ s acc; simp
  | cons c a ih =>
    intro h s acc
    have hc : isSpaceChar c = false := h c (by simp)
    rw [List.cons_append, splitWsAux, if_neg (by simp [hc])]
    rw [ih (fun d hd => h d (by simp [hd])) s (c :: acc)]
    simp

theorem splitWs_single (b : List Char) (hb : b ≠ [])
    (hsb : ∀ c ∈ b, isSpaceChar c = false) :
    splitWs b = [b] := by
  have h1 := splitWsAux_append_left b hsb [] []
  rw [List.append_nil] at h1
  unfold splitWs
  rw [h1, splitWsAux, List.append_nil, if_neg (by simpa [List.isEmpty_iff] using hb)]
  simp

theorem splitWs_pair (a b : List Char) (ha : a ≠ []) (hb : b ≠ [])
    (hsa : ∀ c ∈ a, isSpaceChar c = false)
    (hsb : ∀ c ∈ b, isSpaceChar c = false) :
    splitWs (a ++ ' ' :: b) = [a, b] := by
  unfold splitWs
  rw [splitWsAux_append_left a hsa (' ' :: b) [], splitWsAux,
    if_pos (by decide), if_neg (by simpa [List.isEmpty_iff] using ha)]
  have h2 : splitWsAux b [] = [b] := splitWs_single b hb hsb
  rw [h2]
  simp

theorem joinSpace_pair (a b : List Char) : joinSpace [a, b] = a ++ ' ' :: b := rfl

/-! ## The scan loop versus `find?` on qualifying lines -/

theorem lineGuess_none_iff (line : List Char) :
    lineGuess line = none ↔ qualifiesLine line = false := by
  unfold lineGuess normalizedGuess qualifiesLine
  by_cases hk : keywordHit (normalizeLine line) = true
  · simp [hk]
  · rw [Bool.not_eq_true] at hk
    by_cases hl : 2 ≤ (alphaTokens (normalizeLine line)).length
    · by_cases h2 : (alphaTokens (normalizeLine line)).length = 2 <;>
        simp [hk, hl, h2]
    · simp [hk, hl]

theorem lineGuess_of_qualifies (line : List Char) (h : qualifiesLine line = true) :
    lineGuess line =
      some (joinSpace (((alphaTokens (normalizeLine line)).take 2).map capitalize)) := by
  unfold qualifiesLine at h
  rw [Bool.and_eq_true, Bool.not_eq_true', decide_eq_true_eq] at h
  obtain ⟨hk, hl⟩ := h
  unfold lineGuess normalizedGuess
  rw [if_neg (by simp [hk])]
  simp only
  rw [if_pos hl]
  by_cases h2 : (alphaTokens (normalizeLine line)).length = 2
  · rw [if_pos h2]
    have htake : (alphaTokens (normalizeLine line)).take 2 =
        alphaTokens (normalizeLine line) := by
      rw [← h2, List.take_length]
    rw [htake]
  · rw [if_neg h2]

theorem scanLines_of_find?_none : ∀ cs : List (List Char),
    cs.find? qualifiesLine = none → scanLines cs = none := by
  intro cs
  induction cs with
  | nil => intro _; rfl
  | cons l rest ih =>
    intro h
    by_cases hq : qualifiesLine l = true
    · rw [List.find?_cons_of_pos _ hq] at h
      exact absurd h (by simp)
    · rw [List.find?_cons_of_neg _ hq] at h
      have hnone : lineGuess l = none :=
        (lineGuess_none_iff l).mpr (by simpa using hq)
      rw [scanLines, hnone]
      exact ih h

theorem scanLines_of_find?_some : ∀ (cs : List (List Char)) (line : List Char),
    cs.find? qualifiesLine = some line → scanLines cs = lineGuess line := by
  intro cs
  induction cs with
  | nil => intro line h; simp [List.find?] at h
  | cons l rest ih =>
    intro line h
    by_cases hq : qualifiesLine l = true
    · rw [List.find?_cons_of_pos _ hq] at h
      rw [Option.some_inj] at h
      subst h
      have hne : lineGuess l ≠ none := fun hn => by
        simp [(lineGuess_none_iff l).mp hn] at hq
      obtain ⟨g, hg⟩ := Option.ne_none_iff_exists'.mp hne
      rw [scanLines, hg]
    · rw [List.find?_cons_of_neg _ hq] at h
      have hnone : lineGuess l = none :=
        (lineGuess_none_iff l).mpr (by simpa using hq)
      rw [scanLines, hnone]
      exact ih line h

/-! ## Shape of a formed guess -/

theorem formGuess_shape (tokens : List (List Char))
    (hlen : 2 ≤ tokens.length)
    (hall : ∀ t ∈ tokens, t ≠ [] ∧ ∀ c ∈ t, isSpaceChar c = false) :
    ∃ a b : List Char, a ≠ [] ∧ b ≠ [] ∧
      (∀ c ∈ a, isSpaceChar c = false) ∧ (∀ c ∈ b, isSpaceChar c = false) ∧
      capitalize a = a ∧ capitalize b = b ∧
      joinSpace ((tokens.take 2).map capitalize) = a ++ ' ' :: b ∧
      splitWs (joinSpace ((tokens.take 2).map capitalize)) = [a, b] := by
  match tokens, hlen with
  | t1 :: t2 :: rest, _ =>
    obtain ⟨h1ne, h1sf⟩ := hall t1 (by simp)
    obtain ⟨h2ne, h2sf⟩ := hall t2 (by simp)
    have htake : (t1 :: t2 :: rest).take 2 = [t1, t2] := rfl
    have hjoin : joinSpace (((t1 :: t2 :: rest).take 2).map capitalize) =
        capitalize t1 ++ ' ' :: capitalize t2 := rfl
    refine ⟨capitalize t1, capitalize t2,
      capitalize_ne_nil h1ne, capitalize_ne_nil h2ne,
      capitalize_spaceFree h1sf, capitalize_spaceFree h2sf,
      capitalize_idem t1, capitalize_idem t2, hjoin, ?_⟩
    rw [hjoin]
    exact splitWs_pair _ _ (capitalize_ne_nil h1ne) (capitalize_ne_nil h2ne)
      (capitalize_spaceFree h1sf) (capitalize_spaceFree h2sf)

theorem alphaTokens_wellFormed (normalized : List Char) :
    ∀ t ∈ alphaTokens normalized, t ≠ [] ∧ ∀ c ∈ t, isSpaceChar c = false := by
  intro t ht
  exact splitWs_mem normalized t (List.mem_of_mem_filter ht)

theorem fallbackWords_wellFormed (text : List Char) :
    ∀ t ∈ fallbackWords text, t ≠ [] ∧ ∀ c ∈ t, isSpaceChar c = false := by
  intro t ht
  exact splitWs_mem _ t (List.mem_of_mem_filter ht)

theorem scanLines_shape : ∀ (cs : List (List Char)) (g : List Char),
    scanLines cs = some g →
    ∃ a b : List Char, a ≠ [] ∧ b ≠ [] ∧
      (∀ c ∈ a, isSpaceChar c = false) ∧ (∀ c ∈ b, isSpaceChar c = false) ∧
      capitalize a = a ∧ capitalize b = b ∧
      g = a ++ ' ' :: b ∧ splitWs g = [a, b] := by
  intro cs
  induction cs with
  | nil => intro g h; simp [scanLines] at h
  | cons l rest ih =>
    intro g h
    rw [scanLines] at h
    cases hl : lineGuess l with
    | none => rw [hl] at h; exact ih g h
    | some g0 =>
      rw [hl] at h
      rw [Option.some_inj] at h
      subst h
      have hq : qualifiesLine l = true := by
        by_cases hq2 : qualifiesLine l = true
        · exact hq2
        · rw [(lineGuess_none_iff l).mpr (by simpa using hq2)] at hl
          exact absurd hl (by simp)
      have hform := lineGuess_of_qualifies l hq
      rw [hl, Option.some_inj] at hform
      have hlen : 2 ≤ (alphaTokens (normalizeLine l)).length := by
        unfold qualifiesLine at hq
        rw [Bool.and_eq_true, decide_eq_true_eq] at hq
        exact hq.2
      obtain ⟨a, b, h1, h2, h3, h4, h5, h6, h7, h8⟩ :=
        formGuess_shape _ hlen (alphaTokens_wellFormed (normalizeLine l))
      exact ⟨a, b, h1, h2, h3, h4, h5, h6, by rw [hform]; exact h7,
        by rw [hform]; exact h8⟩

/-! ## The claims -/

/-- **C1.** For every string input, `guess_candidate_name` terminates (it is
built from total, structurally recursive functions) and returns either the
empty string or a string of exactly two space-separated tokens: its
character data is `a ++ ' ' :: b` with `a` and `b` non-empty and
whitespace-free — so the whitespace split of the result is exactly
`[a, b]` — and each of the two tokens is capitalized, i.e. a fixed point
of the per-token capitalization (first character uppercased, remainder
lowercased); when non-empty the result has exactly two tokens no matter
how many qualifying tokens the source line or fallback text contained. -/
theorem guess_empty_or_two_capitalized_tokens (text : String) :
    guess_candidate_name text = "" ∨
    ∃ a b : List Char, a ≠ [] ∧ b ≠ [] ∧
      (∀ c ∈ a, isSpaceChar c = false) ∧ (∀ c ∈ b, isSpaceChar c = false) ∧
      capitalize a = a ∧ capitalize b = b ∧
      (guess_candidate_name text).data = a ++ ' ' :: b ∧
      splitWs (guess_candidate_name text).data = [a, b] := by
  have hdata : (guess_candidate_name text).data = guessList text.data := rfl
  cases hscan : scanLines ((candidateLines text.data).take 20) with
  | some g =>
    have hg : guessList text.data = g := by
      unfold guessList
      rw [hscan]
    obtain ⟨a, b, h1, h2, h3, h4, h5, h6, h7, h8⟩ := scanLines_shape _ g hscan
    right
    exact ⟨a, b, h1, h2, h3, h4, h5, h6,
      by rw [hdata, hg]; exact h7, by rw [hdata, hg]; exact h8⟩
  | none =>
    by_cases hw : 2 ≤ (fallbackWords text.data).length
    · have hg : guessList text.data =
          joinSpace (((fallbackWords text.data).take 2).map capitalize) := by
        unfold guessList
        rw [hscan, if_pos hw]
      obtain ⟨a, b, h1, h2, h3, h4, h5, h6, h7, h8⟩ :=
        formGuess_shape _ hw (fallbackWords_wellFormed text.data)
      right
      exact ⟨a, b, h1, h2, h3, h4, h5, h6,
        by rw [hdata, hg]; exact h7, by rw [hdata, hg]; exact h8⟩
    · left
      have hg : guessList text.data = [] := by
        unfold guessList
        rw [hscan, if_neg hw]
      apply String.ext
      rw [hdata, hg]

/-- **C2.** If among the first 20 candidate lines some line passes the
blocklist check and has at least two alpha tokens, then
`guess_candidate_name` returns the capitalized first two alpha tokens of
the earliest such line (`find?` returns the first match), joined by a
single space, and later lines are never examined. -/
theorem guess_first_qualifying_line (text : String) (line : List Char)
    (h : ((candidateLines text.data).take 20).find? qualifiesLine = some line) :
    (guess_candidate_name text).data =
      joinSpace (((alphaTokens (normalizeLine line)).take 2).map capitalize) := by
  have hq : qualifiesLine line = true := List.find?_some h
  have h1 : scanLines ((candidateLines text.data).take 20) = lineGuess line :=
    scanLines_of_find?_some _ line h
  have h2 := lineGuess_of_qualifies line hq
  show guessList text.data = _
  unfold guessList
  rw [h1, h2]

/-- Witness for **C2**: for the input whose first line is
`"JANE ANNE DOE"`, that line is the earliest qualifying candidate line and
the guess is `"Jane Anne"` — the first two tokens, capitalized. -/
theorem guess_first_qualifying_line_witness :
    ((candidateLines "JANE ANNE DOE".data).take 20).find? qualifiesLine =
        some "JANE ANNE DOE".data ∧
    guess_candidate_name "JANE ANNE DOE" = "Jane Anne" := by
  refine ⟨by decide, ?_⟩
  apply String.ext
  rw [guess_first_qualifying_line "JANE ANNE DOE" "JANE ANNE DOE".data (by decide)]
  decide

/-- **C3.** If no line among the first 20 candidate lines qualifies,
`guess_candidate_name` falls back to the whole document text with newlines
replaced by spaces: when the whitespace split of that text contains at
least two alpha tokens, it returns the first two of them, capitalized and
joined by a space; when it contains fewer than two, it returns the empty
string. -/
theorem guess_fallback_whole_document (text : String)
    (h : ((candidateLines text.data).take 20).find? qualifiesLine = none) :
    (2 ≤ (fallbackWords text.data).length →
      (guess_candidate_name text).data =
        joinSpace (((fallbackWords text.data).take 2).map capitalize)) ∧
    ((fallbackWords text.data).length < 2 → guess_candidate_name text = "") := by
  have h1 : scanLines ((candidateLines text.data).take 20) = none :=
    scanLines_of_find?_none _ h
  constructor
  · intro hw
    show guessList text.data = _
    unfold guessList
    rw [h1, if_pos hw]
  · intro hw
    apply String.ext
    show guessList text.data = "".data
    unfold guessList
    rw [h1, if_neg (by omega)]

/-- Witness for **C3**: on the empty input there is no candidate line and
no fallback word, so the guess is empty; likewise on an input with no
alphabetic token at all. -/
theorem guess_fallback_whole_document_witness :
    (((candidateLines "".data).take 20).find? qualifiesLine = none ∧
      guess_candidate_name "" = "") ∧
    (((candidateLines "12 34\n% 7!".data).take 20).find? qualifiesLine = none ∧
      guess_candidate_name "12 34\n% 7!" = "") := by
  constructor
  · exact ⟨by decide,
      (guess_fallback_whole_document "" (by decide)).2 (by decide)⟩
  · exact ⟨by decide,
      (guess_fallback_whole_document "12 34\n% 7!" (by decide)).2 (by decide)⟩

theorem splitAfterFirstColon_append (pre post : List Char) (h : ':' ∉ pre) :
    splitAfterFirstColon (pre ++ ':' :: post) = post := by
  induction pre with
  | nil => simp [splitAfterFirstColon]
  | cons c pre ih =>
    have hc : c ≠ ':' := fun he => h (by simp [he])
    rw [List.cons_append, splitAfterFirstColon, if_neg hc]
    exact ih (fun he => h (by simp [he]))

/-- **C4.** For every candidate line that contains a colon — written as
`pre ++ ':' :: post` with no colon in `pre`, so the split is at the
*first* colon — the normalized text is the whole substring after that
colon, trimmed; the loop body then works on exactly that normalized text:
the blocklist check sees its lowercased form (not the pre-colon label) and
only its whitespace tokens can contribute alpha tokens. -/
theorem colon_line_normalization (pre post : List Char) (h : ':' ∉ pre) :
    normalizeLine (pre ++ ':' :: post) = pyStrip post ∧
    lineGuess (pre ++ ':' :: post) = normalizedGuess (pyStrip post) ∧
    qualifiesLine (pre ++ ':' :: post) =
      (!keywordHit (pyStrip post) &&
        decide (2 ≤ (alphaTokens (pyStrip post)).length)) := by
  have hnorm : normalizeLine (pre ++ ':' :: post) = pyStrip post := by
    unfold normalizeLine
    rw [if_pos (by simp), splitAfterFirstColon_append pre post h]
  refine ⟨hnorm, ?_, ?_⟩
  · unfold lineGuess
    rw [hnorm]
  · unfold qualifiesLine
    rw [hnorm]

/-- Witness for **C4**: on the line `"Name: Jane Doe"` the normalized text
is everything after the first colon, trimmed to `"Jane Doe"`. -/
theorem colon_line_normalization_witness :
    ':' ∉ "Name".data ∧
    normalizeLine ("Name".data ++ ':' :: " Jane Doe".data) =
      pyStrip " Jane Doe".data ∧
    normalizeLine "Name: Jane Doe".data = "Jane Doe".data := by
  refine ⟨by decide, ?_, by decide⟩
  exact (colon_line_normalization "Name".data " Jane Doe".data (by decide)).1

/-- **C5 counterexample.** The claim asserts that the first line of
`"Contact: jane@example.com\nJohn Smith\nSkills: Python"` is rejected via
the keyword blocklist, the keyword check running on line text that
includes the email so that `"contact"` triggers rejection. In the code
the blocklist check is applied to the lowercased *post-colon* text
`"jane@example.com"`, which contains no blocklist keyword: the blocklist
check does **not** fire on that line. -/
theorem contact_line_blocklist_does_not_fire :
    normalizeLine "Contact: jane@example.com".data = "jane@example.com".data ∧
    keywordHit (normalizeLine "Contact: jane@example.com".data) = false := by
  exact ⟨by decide, by decide⟩

/-- **C5 amended.** For the input
`"Contact: jane@example.com\nJohn Smith\nSkills: Python"`,
`guess_candidate_name` returns `"John Smith"`; the first line is indeed
skipped, but not via the keyword blocklist (the check runs on the
post-colon text, which contains no keyword): it is skipped because the
post-colon text `"jane@example.com"` yields no alpha tokens at all, fewer
than the two required. -/
theorem contact_email_example :
    guess_candidate_name "Contact: jane@example.com\nJohn Smith\nSkills: Python"
        = "John Smith" ∧
    keywordHit (normalizeLine "Contact: jane@example.com".data) = false ∧
    alphaTokens (normalizeLine "Contact: jane@example.com".data) = [] ∧
    lineGuess "Contact: jane@example.com".data = none := by
  refine ⟨by decide, by decide, by decide, by decide⟩

theorem filterMap_strip_eq (ls : List (List Char)) :
    ls.filterMap keepLine =
    (ls.map pyStrip).filter (fun s => !s.isEmpty && decide (s.length ≤ 60)) := by
  induction ls with
  | nil => rfl
  | cons l ls ih =>
    by_cases h : (!(pyStrip l).isEmpty && decide ((pyStrip l).length ≤ 60)) = true
    · have hk : keepLine l = some (pyStrip l) := by unfold keepLine; rw [if_pos h]
      rw [List.filterMap_cons, List.map_cons, List.filter_cons, hk, if_pos h, ih]
    · have hk : keepLine l = none := by unfold keepLine; rw [if_neg h]
      rw [List.filterMap_cons, List.map_cons, List.filter_cons, hk, if_neg h, ih]

/-- A document whose first 20 candidate lines each hold a single alpha
token and whose 21st candidate line is a qualifying two-token name line. -/
def windowDemoText : String :=
  "Aa\nBb\nCc\nDd\nEe\nFf\nGg\nHh\nIi\nJj\nKk\nLl\nMm\nNn\nOo\nPp\nQq\nRr\nSs\nTt\nJohn Smith"

/-- **C6.** (i) The candidate-line sequence consists exactly of the
document's lines that are non-empty after trimming and whose trimmed
length is at most 60, stripped, in original order. (ii) The guess depends
only on the first 20 candidate lines together with the fallback words, so
the line scan never examines candidate lines beyond the 20th. (iii)
Concretely: in `windowDemoText` the line `"John Smith"` qualifies and is
the 21st candidate line, yet the guess is the fallback `"Aa Bb"`, not
`"John Smith"`. -/
theorem candidate_lines_and_window :
    (∀ text : List Char,
      candidateLines text =
        ((splitlines text).map pyStrip).filter
          (fun s => !s.isEmpty && decide (s.length ≤ 60))) ∧
    (∀ t1 t2 : String,
      (candidateLines t1.data).take 20 = (candidateLines t2.data).take 20 →
      fallbackWords t1.data = fallbackWords t2.data →
      guess_candidate_name t1 = guess_candidate_name t2) ∧
    (qualifiesLine "John Smith".data = true ∧
      (candidateLines windowDemoText.data).drop 20 = ["John Smith".data] ∧
      guess_candidate_name windowDemoText = "Aa Bb") := by
  refine ⟨?_, ?_, by decide, by decide, by decide⟩
  · intro text
    unfold candidateLines
    exact filterMap_strip_eq (splitlines text)
  · intro t1 t2 hcs hfw
    apply String.ext
    show guessList t1.data = guessList t2.data
    unfold guessList
    rw [hcs, hfw]

/-- Witness for **C6**: `"John Smith"` and `"John Smith "` differ as
strings but have the same first-20 candidate lines and the same fallback
words, so their guesses agree. -/
theorem candidate_lines_and_window_witness :
    (candidateLines "John Smith".data).take 20 =
      (candidateLines "John Smith ".data).take 20 ∧
    fallbackWords "John Smith".data = fallbackWords "John Smith ".data ∧
    guess_candidate_name "John Smith" = guess_candidate_name "John Smith " := by
  refine ⟨by decide, by decide, ?_⟩
  exact candidate_lines_and_window.2.1 "John Smith" "John Smith "
    (by decide) (by decide)

/-- **C7.** `guess_candidate_name` is deterministic and pure: in this
embedding it is a mathematical function of its input string alone, so the
output depends only on the input parameter and two evaluations on the
same text yield the same result. -/
theorem guess_deterministic (t1 t2 : String) (h : t1 = t2) :
    guess_candidate_name t1 = guess_candidate_name t2 :=
  congrArg guess_candidate_name h

/-- Witness for **C7**: two evaluations on `"Jane Doe"` agree. -/
theorem guess_deterministic_witness :
    ("Jane Doe" : String) = "Jane Doe" ∧
    guess_candidate_name "Jane Doe" = guess_candidate_name "Jane Doe" :=
  ⟨rfl, guess_deterministic "Jane Doe" "Jane Doe" rfl⟩

/-- **C8.** On a successful run the output record always maps `"text"` to
the full extracted document text, and it contains the key `"name"` if and
only if `guess_candidate_name` returned a non-empty string — absent, not
empty, otherwise — with its value equal to that guess. -/
theorem payload_text_always_name_iff_nonempty (text : String) :
    (buildPayload text).lookup "text" = some text ∧
    ((buildPayload text).lookup "name" =
      if guess_candidate_name text = "" then none
      else some (guess_candidate_name text)) ∧
    ("name" ∈ (buildPayload text).map Prod.fst ↔
      guess_candidate_name text ≠ "") := by
  by_cases h : guess_candidate_name text = ""
  · unfold buildPayload
    rw [if_pos h, if_pos h]
    refine ⟨rfl, rfl, ?_⟩
    simp [h]
  · unfold buildPayload
    rw [if_neg h, if_neg h]
    refine ⟨rfl, rfl, ?_⟩
    simp [h]

/-- **C9.** A whitespace-delimited token consisting only of hyphens is not
an alpha token — removing its hyphens leaves the empty string, which is
not alphabetic — in either the line scan or the fallback (both filter by
`isAlphaToken`); for example an input whose only tokens are runs of
hyphens yields the empty guess. -/
theorem hyphen_only_token_not_alpha :
    (∀ token : List Char, (∀ c ∈ token, c = '-') → isAlphaToken token = false) ∧
    guess_candidate_name "-- ---\n-" = "" := by
  refine ⟨?_, by decide⟩
  intro token h
  have hfilter : token.filter (fun c => c != '-') = [] := by
    rw [List.filter_eq_nil_iff]
    intro a ha
    simp [h a ha]
  unfold isAlphaToken
  rw [hfilter]
  rfl

/-- Witness for **C9**: the all-hyphen token `"--"` is not an alpha token. -/
theorem hyphen_only_token_not_alpha_witness :
    (∀ c ∈ ['-', '-'], c = '-') ∧ isAlphaToken ['-', '-'] = false :=
  ⟨by decide, hyphen_only_token_not_alpha.1 ['-', '-'] (by decide)⟩

/-- **C10.** Returned tokens keep their hyphens, and capitalization
lowercases every character after the first, including letters that follow
a hyphen: for input whose first candidate line is `"Jean-Luc PICARD"`, the
guess is `"Jean-luc Picard"`. -/
theorem hyphenated_token_capitalization :
    guess_candidate_name "Jean-Luc PICARD" = "Jean-luc Picard" ∧
    guess_candidate_name "Jean-Luc PICARD\nStarfleet Officer" = "Jean-luc Picard" ∧
    capitalize "Jean-Luc".data = "Jean-luc".data := by
  refine ⟨by decide, by decide, by decide⟩
